import Mathlib

/-!
Verification of the compiler middle-end (IR storage model and
reaching-definitions dataflow analysis) against its specification.

The Rust sources embedded here are `src/reach_lattice.rs`, `src/ir/mod.rs`
and `src/ir/ops.rs`.  Modules referenced by those files but absent from the
repository snapshot (`crate::util`, `crate::semilattice`, `crate::block`,
`crate::ir::block`) are modelled from the specification; each such
definition carries a doc comment starting with `Modelled from the spec:`.

Conventions of the embedding:
* Rust `panic!`/`todo!`/`unimplemented!`/`unwrap` failures are modelled by
  `Option`-returning functions producing `none`.
* `FixedBitSet` (external crate) is modelled as a list of booleans with the
  crate's documented operation semantics.
* Machine integers (`i64`) are modelled as `Int` with explicit range checks
  where overflow matters.
-/

/-! ## FixedBitSet (external crate `fixedbitset`) -/

/-- Model of `fixedbitset::FixedBitSet`: a fixed-length bit vector.
`bits.length` is the capacity; bit `i` is `bits.getD i false`. -/
structure FixedBitSet where
  bits : List Bool
deriving Repr, DecidableEq

namespace FixedBitSet

/-- `FixedBitSet::with_capacity(n)`: `n` bits, all zero. -/
def with_capacity (n : Nat) : FixedBitSet :=
  ⟨List.replicate n false⟩

/-- Number of bits (`FixedBitSet::len`). -/
def len (s : FixedBitSet) : Nat := s.bits.length

/-- Bit lookup (`FixedBitSet::contains` / `Index` impl): bit at `i`,
false out of range (in-range callers match the crate exactly). -/
def getBit (s : FixedBitSet) (i : Nat) : Bool := s.bits.getD i false

/-- `FixedBitSet::set(i, b)` for in-range `i` (out of range the crate
panics; all embedded call sites are in range). -/
def setBit (s : FixedBitSet) (i : Nat) (b : Bool) : FixedBitSet :=
  ⟨s.bits.set i b⟩

/-- `toggle_range(..)`: flip every bit. -/
def toggle_range (s : FixedBitSet) : FixedBitSet :=
  ⟨s.bits.map (fun b => !b)⟩

/-- `union_with`: in-place union; `self` grows to `other`'s length when
`other` is longer. -/
def union_with (s other : FixedBitSet) : FixedBitSet :=
  ⟨(List.range (max s.len other.len)).map
    (fun i => s.getBit i || other.getBit i)⟩

/-- `intersect_with`: in-place intersection; `self` keeps its length,
bits beyond `other`'s length become zero. -/
def intersect_with (s other : FixedBitSet) : FixedBitSet :=
  ⟨(List.range s.len).map (fun i => s.getBit i && other.getBit i)⟩

end FixedBitSet

/-! ## Operations and data types (`src/ir/ops.rs`) -/

/-- `CompareType` from `ops.rs`. -/
inductive CompareType
  | Less | Greater | Eq | NotEq | LessEqual | GreaterEqual
deriving Repr, DecidableEq

/-- `BinaryOp` from `ops.rs`. -/
inductive BinaryOp
  | Add | Sub | Mul | Div
  | Compare (c : CompareType)
  | And | Or | Xor
deriving Repr, DecidableEq

/-- `UnaryOp` from `ops.rs`. -/
inductive UnaryOp
  | Not | Negative | Unit
deriving Repr, DecidableEq

/-- `DataType`. `ops.rs` declares `I64 | F64 | Bool | Array(Box<DataType>, u32)`;
`ir/mod.rs` additionally matches `DataType::Struct(members)` and uses
`DataType::Void` (the shipped `ops.rs` is a stale version of the enum), so
the embedding carries all six variants. -/
inductive DataType
  | I64
  | F64
  | Bool
  | Array (elem : DataType) (len : Nat)
  | Struct (members : List DataType)
  | Void
deriving Repr

/-! ## Values and literals (`src/ir/mod.rs`) -/

/-- `IntValue { value : i64 }`. -/
structure IntValue where
  value : Int
deriving Repr, DecidableEq

/-- `ArrayValue { value : Vec<SpaceNameId> }`. -/
structure ArrayValue where
  value : List Nat
deriving Repr, DecidableEq

/-- `StructValue { value : Vec<SpaceNameId> }`. -/
structure StructValue where
  value : List Nat
deriving Repr, DecidableEq

/-- `Value` from `ir/mod.rs`. -/
inductive Value
  | Int (v : IntValue)
  | Array (v : ArrayValue)
  | Struct (v : StructValue)
  | Void
deriving Repr, DecidableEq

/-- Smallest `i64`. -/
def i64Min : Int := -(2 ^ 63)

/-- Largest `i64`. -/
def i64Max : Int := 2 ^ 63 - 1

namespace IntValue

/-- `impl Literal for IntValue`, `binary`: only `BinaryOp::Add` computes
(`self.value + other.unwrap().value`); every other arm is `todo!()` (and the
stale enum's `Compare` variant has no arm at all).  `none` models the panic:
of `todo!()`, of `other.unwrap()` when `other` is `None`, and of debug-mode
`i64` overflow. -/
def binary (self : IntValue) (op : BinaryOp) (other : Option IntValue) :
    Option IntValue :=
  match op with
  | BinaryOp.Add =>
    match other with
    | some o =>
      let s := self.value + o.value
      if i64Min ≤ s ∧ s ≤ i64Max then some ⟨s⟩ else none
    | none => none
  | _ => none

/-- `impl Literal for IntValue`, `static_cmp`: body is `todo!()`. -/
def static_cmp (self : IntValue) (cmp : CompareType) (other : Option IntValue) :
    Option Bool :=
  none

/-- `impl Literal for IntValue`, `unary`: body is `todo!()`. -/
def unary (self : IntValue) (op : UnaryOp) (other : Option IntValue) :
    Option IntValue :=
  none

end IntValue

/-! ## IR instructions (`src/ir/mod.rs`) -/

/-- `AddressMarker { block_id : BlockNameId }`. -/
structure AddressMarker where
  block_id : Nat
deriving Repr, DecidableEq

/-- `Operation` from `ir/mod.rs`; operands are logical Space ids. -/
inductive Operation
  | Binary (op : BinaryOp) (lhs rhs : Nat)
  | Unary (op : UnaryOp) (operand : Nat)
  | Compare (cmp : CompareType) (lhs rhs : Nat)
  | Call (function : Nat)
deriving Repr

/-- `CommandOperation` from `ir/mod.rs`. -/
inductive CommandOperation
  | Store (dest src : Nat)
deriving Repr

/-- `JumpOperation` from `ir/mod.rs`. -/
inductive JumpOperation
  | Unconditional (m : AddressMarker)
  | Branch (cond : Nat) (t f : AddressMarker)
  | Next
  | End
  | Ret (v : Nat)
deriving Repr

/-- `IRInformation { declaration_number : Option<usize> }`. -/
structure IRInformation where
  declaration_number : Option Nat
deriving Repr

/-- `IR` from `ir/mod.rs`. -/
inductive IR
  | Assignment (dest : Nat) (op : Operation) (info : IRInformation)
  | Jump (op : JumpOperation) (info : IRInformation)
  | Command (op : CommandOperation) (info : IRInformation)
deriving Repr

/-! ## Blocks, graph weight, graph (modelled: `ir/block.rs`, `block.rs`
are not in the snapshot) -/

/-- Modelled from the spec: `CodeBlockGraphWeight` — graph-wide metadata:
`assignment_count` (number of declaration numbers, i.e. the bit-vector
universe size) and `variable_assignment_map` (Space logical id → set of
declaration numbers that ever assign it). -/
structure CodeBlockGraphWeight where
  assignment_count : Nat
  variable_assignment_map : List (Nat × List Nat)

/-- Modelled from the spec: a `CodeBlock` is an ordered sequence of
instructions (`irs_range`); only that field is consulted by the embedded
analysis code. -/
structure CodeBlock where
  irs_range : List IR

/-! ## ReachLattice (`src/reach_lattice.rs`) -/

/-- `ReachLattice { value : FixedBitSet }`. -/
structure ReachLattice where
  value : FixedBitSet
deriving Repr, DecidableEq

/-- Modelled from the spec: `CodeBlockAnalysisNode` — a per-analysis wrapper
node holding the block and its `reach_in`/`reach_out` lattice-fact slots. -/
structure CodeBlockAnalysisNode where
  block : CodeBlock
  reach_in : ReachLattice
  reach_out : ReachLattice

/-- Modelled from the spec: `DataFlowGraph` — a directed graph of analysis
nodes with a single graph-level payload `weight`; the embedded transfer
functions consult only `weight`. -/
structure DataFlowGraph where
  nodes : List CodeBlockAnalysisNode
  weight : CodeBlockGraphWeight

namespace ReachLattice

/-- `ReachLattice::new(capacity)`. -/
def new (capacity : Nat) : ReachLattice :=
  ⟨FixedBitSet.with_capacity capacity⟩

/-- `ReachLattice::gen_var`: only the instruction's own declaration number
is 1 (all zeros for non-assignments or assignments without a number). -/
def gen_var (ir : IR) (w : CodeBlockGraphWeight) : ReachLattice :=
  let set := FixedBitSet.with_capacity w.assignment_count
  match ir with
  | IR.Assignment _ _ info =>
    match info.declaration_number with
    | some d => ⟨set.setBit d true⟩
    | none => ⟨set⟩
  | _ => ⟨set⟩

/-- `ReachLattice::kill_var`: the body in the source is `todo!()` (the
intended computation is present only as commented-out code), so every call
panics; `none` models the panic. -/
def kill_var (ir : IR) (w : CodeBlockGraphWeight) : Option ReachLattice :=
  none

/-- `ReachLattice::kill_mask_var`: `kill_var` then `toggle_range(..)`; since
`kill_var` panics on every input, so does this. -/
def kill_mask_var (ir : IR) (w : CodeBlockGraphWeight) : Option ReachLattice :=
  (kill_var ir w).map (fun s => ⟨s.value.toggle_range⟩)

/-- `impl SemiLattice for ReachLattice`, `meet`: bitwise union. -/
def meet (a b : ReachLattice) : ReachLattice :=
  ⟨a.value.union_with b.value⟩

/-- `impl SemiLattice for ReachLattice`, `meet_with`: if the two bit sets
are equal return `false`; otherwise union `other` into `self` and return
`true`.  Result is (new value of `self`, returned flag). -/
def meet_with (a b : ReachLattice) : ReachLattice × Bool :=
  if a.value = b.value then (a, false)
  else (⟨a.value.union_with b.value⟩, true)

/-- `impl ProductLattice<bool> for ReachLattice`, `get`: `None` when
`index >= self.value.len()`, otherwise the bit at `index`. -/
def get (self : ReachLattice) (index : Nat) : Option Bool :=
  if index ≥ self.value.len then none
  else some (self.value.getBit index)

end ReachLattice

/-! ## SemiLattice instance for `bool` (`src/reach_lattice.rs`) -/

namespace SemiLatticeBool

/-- `impl SemiLattice for bool`, `meet`: logical or. -/
def meet (a b : Bool) : Bool := a || b

/-- `impl SemiLattice for bool`, `meet_with`: if `self == other` return
`false`; otherwise assign `*self = *other` and return `true`.  Result is
(new value of `self`, returned flag). -/
def meet_with (a b : Bool) : Bool × Bool :=
  if a = b then (a, false) else (b, true)

end SemiLatticeBool

/-! ## BlockTransfer impl for reaching definitions (`src/reach_lattice.rs`) -/

/-- `transfer_forward` as shipped: `current_gen` and `current_kill` stay
all-zero and `current_kill_mask` stays all-one because the reverse
instruction scan that would accumulate them is commented out in the source;
the result is `(in ∩ kill_mask) ∪ gen` over those unaccumulated values. -/
def transfer_forward (self : CodeBlockAnalysisNode) (in_value : ReachLattice)
    (graph : DataFlowGraph) (idx : Nat) : ReachLattice :=
  let current_gen := FixedBitSet.with_capacity graph.weight.assignment_count
  let current_kill := FixedBitSet.with_capacity graph.weight.assignment_count
  let current_kill_mask :=
    (FixedBitSet.with_capacity graph.weight.assignment_count).toggle_range
  let res_out := (in_value.value.intersect_with current_kill_mask).union_with
    current_gen
  ⟨res_out⟩

/-- `transfer_backward`: body is `todo!()`, panics on every input. -/
def transfer_backward (self : CodeBlockAnalysisNode) (out_value : ReachLattice)
    (graph : DataFlowGraph) (idx : Nat) : Option ReachLattice :=
  none

/-- `top`: zero bit-vector of size `assignment_count`. -/
def reachTop (graph : DataFlowGraph) : ReachLattice :=
  ReachLattice.new graph.weight.assignment_count

/-- `entry_out`: equals `top`. -/
def entry_out (graph : DataFlowGraph) : ReachLattice :=
  reachTop graph

/-- `exit_in`: body is `unimplemented!("Invalid data flow")`, panics on
every input. -/
def exit_in (graph : DataFlowGraph) : Option ReachLattice :=
  none

/-! ## Scope, flat lattice, spaces (`src/ir/mod.rs`; `FlatLattice` is from
the absent `semilattice.rs` and is modelled from the spec) -/

/-- `Scope` from `ir/mod.rs`. -/
inductive Scope
  | Global
  | Local (fn_name_id : Nat)
deriving Repr, DecidableEq

/-- Modelled from the spec: `FlatLattice<T>` (from the absent
`semilattice.rs`) — `Top` (unconstrained) refines to `Value(T)` refines to
`Bottom` (unreachable). -/
inductive FlatLattice (α : Type)
  | Top
  | Value (v : α)
  | Bottom
deriving Repr, DecidableEq

/-- `SpaceSignature` from `ir/mod.rs`. -/
inductive SpaceSignature
  | Normal (ty : Option DataType) (members : List Nat)
  | Offset (base : Nat) (offset : Nat) (ty : Option DataType) (members : List Nat)
deriving Repr

/-- `Space` from `ir/mod.rs`. -/
structure Space where
  signature : SpaceSignature
  scope : Scope
  value : FlatLattice Value

/-! ## Monotonic pools and name maps (modelled: `util.rs` is not in the
snapshot) -/

/-- Modelled from the spec: `MonotonicNamedPool` (from the absent
`util.rs`) — an append-only arena (`arena`, handle = position) paired with
a monotonic logical-id counter (`next_id`, never reused) and the map
`ids : logical id → arena handle`. -/
structure MonotonicNamedPool (α : Type) where
  next_id : Nat
  arena : List α
  ids : List (Nat × Nat)

namespace MonotonicNamedPool

/-- Modelled from the spec: `MonotonicNamedPool::new(origin)` — empty pool
whose first logical id will be `origin` (the source calls `new(1)`). -/
def new (α : Type) (origin : Nat) : MonotonicNamedPool α :=
  ⟨origin, [], []⟩

/-- Modelled from the spec: insertion — allocates the next logical id,
appends the entity to the arena, records `logical id → arena handle`,
returns `(logical id, arena handle)`.  `insert_nameless` on a name map has
the same effect on the shared pool and touches no name binding. -/
def insert (p : MonotonicNamedPool α) (e : α) :
    (Nat × Nat) × MonotonicNamedPool α :=
  ((p.next_id, p.arena.length),
   ⟨p.next_id + 1, p.arena ++ [e], (p.next_id, p.arena.length) :: p.ids⟩)

/-- Modelled from the spec: `get_id` / `get_id_from_name_id` — pure lookup
of the arena handle of a logical id. -/
def get_id (p : MonotonicNamedPool α) (nid : Nat) : Option Nat :=
  (p.ids.find? (fun pr => pr.1 = nid)).map Prod.snd

/-- Entity stored under a logical id: handle lookup then arena read. -/
def getEntity (p : MonotonicNamedPool α) (nid : Nat) : Option α :=
  (p.get_id nid).bind (fun h => p.arena[h]?)

/-- Pool sanity invariant: every recorded logical id was allocated below
`next_id` and maps to a valid arena handle. -/
def WF (p : MonotonicNamedPool α) : Prop :=
  ∀ pr ∈ p.ids, pr.1 < p.next_id ∧ pr.2 < p.arena.length

end MonotonicNamedPool

/-- Modelled from the spec: `MonotonicNameMap` (from the absent `util.rs`)
— a name map over a shared pool, binding keys to logical ids.  The
duplicate-binding policy is left open by the spec; the embedding uses
last-bind-wins (no embedded claim depends on the policy, because every
embedded call site binds a key at most once). -/
structure MonotonicNameMap (κ : Type) where
  bindings : List (κ × Nat)

namespace MonotonicNameMap

variable {κ : Type} [DecidableEq κ]

/-- Modelled from the spec: `bind(name, id)`. -/
def bind (m : MonotonicNameMap κ) (k : κ) (nid : Nat) : MonotonicNameMap κ :=
  ⟨(k, nid) :: m.bindings⟩

/-- Modelled from the spec: `get_name_id` — pure lookup of a key's logical
id. -/
def get_name_id (m : MonotonicNameMap κ) (k : κ) : Option Nat :=
  (m.bindings.find? (fun pr => pr.1 = k)).map Prod.snd

/-- Modelled from the spec: `get_name_id_and_id` — key to
`(logical id, arena handle)` through the shared pool. -/
def get_name_id_and_id {α : Type} (m : MonotonicNameMap κ)
    (p : MonotonicNamedPool α) (k : κ) : Option (Nat × Nat) :=
  (m.get_name_id k).bind (fun nid => (p.get_id nid).map (fun h => (nid, h)))

/-- Modelled from the spec: `get_id_or_insert(name, ctor)` — the existing
`(logical id, arena handle)` when the key is bound (`none` models the
panic when a bound id is missing from the pool, impossible in well-formed
states); otherwise allocate a fresh id, store `ctor logical-id arena-handle`,
and bind the key. -/
def get_id_or_insert {α : Type} (m : MonotonicNameMap κ)
    (p : MonotonicNamedPool α) (k : κ) (ctor : Nat → Nat → α) :
    Option ((Nat × Nat) × MonotonicNameMap κ × MonotonicNamedPool α) :=
  match m.get_name_id k with
  | some nid => (p.get_id nid).map (fun h => ((nid, h), m, p))
  | none =>
    let r := p.insert (ctor p.next_id p.arena.length)
    some (r.1, m.bind k r.1.1, r.2)

end MonotonicNameMap

/-! ## Program and Function state (`src/ir/mod.rs`) -/

/-- State of `Program` relevant to the space-model operations: the shared
space pool and the `globals` and `constants` name maps over it (the
function and block pools are not consulted by the embedded operations). -/
structure ProgramState where
  space_pool : MonotonicNamedPool Space
  globals : MonotonicNameMap String
  constants : MonotonicNameMap Value

/-- State of `Function` relevant to the space-model operations: its
`name_id` and its `locals` name map over the shared space pool. -/
structure FunctionState where
  name_id : Nat
  locals : MonotonicNameMap String

namespace ProgramState

/-- `Program::new()`: space pool starts at origin 1, maps empty. -/
def new : ProgramState :=
  ⟨MonotonicNamedPool.new Space 1, ⟨[]⟩, ⟨[]⟩⟩

/-- `Program::lookup_space`: arena handle of a logical space id. -/
def lookup_space (ps : ProgramState) (nid : Nat) : Option Nat :=
  ps.space_pool.get_id nid

/-- `Program::lookup_global_by_name`. -/
def lookup_global_by_name (ps : ProgramState) (name : String) :
    Option (Nat × Nat) :=
  ps.globals.get_name_id_and_id ps.space_pool name

end ProgramState

/-! ## `declare_space` (`src/ir/mod.rs`)

`Function::declare_space` and `Program::declare_space` have textually
identical bodies: recursively declare one member Space per element of an
array type (resp. per declared member type of a struct type), collect the
members' logical ids, then insert the aggregate itself with signature
`Normal(data_type, members)`, scope as given and value `Top`.  Both
allocate from the same shared space pool (the Function through
`locals.insert_nameless`, the Program through `space_pool.insert`), so both
are embedded through one core recursion on the pool. -/

/-- The member types a declaration recurses into: `N` copies of the element
type for `Array(T, N)`, the declared member types for `Struct`, nothing
otherwise — mirroring the `match` in both `declare_space` bodies. -/
def memberTypes : Option DataType → List DataType
  | some (DataType.Array t n) => List.replicate n t
  | some (DataType.Struct ts) => ts
  | _ => []

mutual

/-- Termination measure for the `declare_space` recursion. -/
def DataType.weight : DataType → Nat
  | DataType.Array t n => (n + 1) * (t.weight + 1) + 1
  | DataType.Struct ts => listWeight ts + 2
  | _ => 1

/-- Termination measure of a member-type list. -/
def listWeight : List DataType → Nat
  | [] => 0
  | t :: ts => t.weight + 1 + listWeight ts

end

/-- Termination measure of an optional type. -/
def optWeight : Option DataType → Nat
  | some t => t.weight
  | none => 0

theorem listWeight_replicate (n : Nat) (t : DataType) :
    listWeight (List.replicate n t) = n * (t.weight + 1) := by
  induction n with
  | zero => simp [listWeight]
  | succ m ih => simp [List.replicate, listWeight, ih]; ring

theorem listWeight_memberTypes_le (ty : Option DataType) :
    listWeight (memberTypes ty) ≤ optWeight ty := by
  match ty with
  | none => simp [memberTypes, listWeight, optWeight]
  | some (DataType.Array t n) =>
    simp [memberTypes, optWeight, DataType.weight, listWeight_replicate]
    nlinarith [Nat.zero_le (t.weight + 1)]
  | some (DataType.Struct ts) =>
    simp [memberTypes, optWeight, DataType.weight]
  | some DataType.I64 | some DataType.F64 | some DataType.Bool
  | some DataType.Void =>
    simp [memberTypes, optWeight, DataType.weight, listWeight]

mutual

/-- Core of `Function::declare_space` / `Program::declare_space`: declare
the member Spaces of `ty` recursively, then the aggregate itself. -/
def declare_space_core (p : MonotonicNamedPool Space) (ty : Option DataType)
    (scope : Scope) : (Nat × Nat) × MonotonicNamedPool Space :=
  let r := declareMembers p (memberTypes ty) scope
  r.2.insert ⟨SpaceSignature.Normal ty r.1, scope, FlatLattice.Top⟩
termination_by (optWeight ty, 1)
decreasing_by
  have h := listWeight_memberTypes_le ty
  rcases Nat.lt_or_ge (listWeight (memberTypes ty)) (optWeight ty) with hlt | hge
  · exact Prod.Lex.left _ _ hlt
  · have : listWeight (memberTypes ty) = optWeight ty := le_antisymm h hge
    rw [this]
    exact Prod.Lex.right _ (by omega)

/-- Declare one Space per member type, in order, collecting logical ids. -/
def declareMembers (p : MonotonicNamedPool Space) (l : List DataType)
    (scope : Scope) : List Nat × MonotonicNamedPool Space :=
  match l with
  | [] => ([], p)
  | t :: ts =>
    let r1 := declare_space_core p (some t) scope
    let r2 := declareMembers r1.2 ts scope
    (r1.1.1 :: r2.1, r2.2)
termination_by (listWeight l, 0)
decreasing_by
  all_goals exact Prod.Lex.left _ _ (by simp only [listWeight, optWeight]; omega)

end

/-- `Program::declare_space`: the core recursion on the shared space
pool, repackaged into the program state. -/
def ProgramState.declare_space (ps : ProgramState) (ty : Option DataType)
    (scope : Scope) : (Nat × Nat) × ProgramState :=
  let r := declare_space_core ps.space_pool ty scope
  (r.1, { ps with space_pool := r.2 })

/-- `Program::declare_global`: `declare_space` with `Scope::Global`, then
bind the name in `globals`. -/
def ProgramState.declare_global (ps : ProgramState) (name : String)
    (ty : Option DataType) : (Nat × Nat) × ProgramState :=
  let r := ps.declare_space ty Scope.Global
  (r.1, { r.2 with globals := r.2.globals.bind name r.1.1 })

/-- `Program::lookup_or_insert_global`. -/
def ProgramState.lookup_or_insert_global (ps : ProgramState) (name : String) :
    (Nat × Nat) × ProgramState :=
  match ps.lookup_global_by_name name with
  | some t => (t, ps)
  | none => ps.declare_global name none

/-- The member list of a constant's Space, by the `match` on the value in
`lookup_or_insert_constant`. -/
def constantMembers : Value → List Nat
  | Value.Int _ => []
  | Value.Array a => a.value
  | Value.Struct s => s.value
  | Value.Void => []

/-- `Program::lookup_or_insert_constant`: deduplicate by value through the
`constants` name map; a fresh constant Space gets signature
`Normal(Some(data_type), members)`, scope `Global` and flat-lattice fact
`Value(value)`. -/
def ProgramState.lookup_or_insert_constant (ps : ProgramState)
    (data_type : DataType) (value : Value) :
    Option ((Nat × Nat) × ProgramState) :=
  (ps.constants.get_id_or_insert ps.space_pool value
    (fun _ _ =>
      ⟨SpaceSignature.Normal (some data_type) (constantMembers value),
       Scope.Global, FlatLattice.Value value⟩)).map
    (fun r => (r.1, { ps with constants := r.2.1, space_pool := r.2.2 }))

/-- `Function::declare_space`: same body as `Program::declare_space`,
allocating from the shared pool through `locals.insert_nameless` (the
`locals` bindings are untouched). -/
def FunctionState.declare_space (f : FunctionState) (ps : ProgramState)
    (ty : Option DataType) (scope : Scope) :
    (Nat × Nat) × FunctionState × ProgramState :=
  let r := declare_space_core ps.space_pool ty scope
  (r.1, f, { ps with space_pool := r.2 })

/-- `Function::declare_local`: `declare_space` with
`Scope::Local { fn_name_id }`, then bind the name in `locals`. -/
def FunctionState.declare_local (f : FunctionState) (ps : ProgramState)
    (name : String) (ty : Option DataType) :
    (Nat × Nat) × FunctionState × ProgramState :=
  let r := f.declare_space ps ty (Scope.Local f.name_id)
  (r.1, { r.2.1 with locals := r.2.1.locals.bind name r.1.1 }, r.2.2)

/-- `Function::lookup_or_insert_space`: (1) existing local binding (the
arena handle is fetched from the owning program's pool, `unwrap` modelled
by `none`); (2) existing global binding; (3) fresh local with unknown
type. -/
def FunctionState.lookup_or_insert_space (f : FunctionState)
    (ps : ProgramState) (name : String) :
    Option ((Nat × Nat) × FunctionState × ProgramState) :=
  match f.locals.get_name_id name with
  | some nid =>
    (ps.lookup_space nid).map (fun sid => ((nid, sid), f, ps))
  | none =>
    match ps.lookup_global_by_name name with
    | some t => some (t, f, ps)
    | none => some (f.declare_local ps name none)

/-! ## Program↔Function ownership (`src/ir/mod.rs`, `Rc` reference
counting)

`type ProgramRef = RcRef<Program>` is an `Rc<RefCell<Program>>` — a strong
handle.  `Program` keeps `weak_self : WeakRef<Self>`;
`lookup_or_insert_function` constructs each new `Function` with
`Function::new(self.weak_self.upgrade().unwrap(), ...)`, and
`Function::new` stores that strong handle in the `program` field.  The
`Function`s themselves are strongly owned by the program's
`function_pool`.  The model below applies Rust's `Rc` semantics (an
allocation is freed exactly when its strong count reaches zero) to the
Program allocation. -/

/-- Kind of an `Rc`-family handle: `strong` (`Rc`, owning) or `weak`
(`Weak`, non-owning). -/
inductive HandleKind
  | strong
  | weak
deriving Repr, DecidableEq

/-- The kind of back-handle each `Function` stores to its `Program`: its
field has type `ProgramRef = RcRef<Program>` (an `Rc`), filled from
`weak_self.upgrade().unwrap()` — a strong handle. -/
def functionBackRefKind : HandleKind := HandleKind.strong

/-- Strong references the stored back-handle of one Function contributes
to the Program allocation's strong count. -/
def backRefStrongContribution : Nat :=
  match functionBackRefKind with
  | HandleKind.strong => 1
  | HandleKind.weak => 0

/-- Strong count of the Program allocation given the number of live
external handles and of constructed Functions (each Function lives inside
`function_pool`, hence exactly as long as the Program itself). -/
def programStrongCount (externalHandles functionsConstructed : Nat) : Nat :=
  externalHandles + functionsConstructed * backRefStrongContribution

/-- Rust `Rc` semantics: the allocation is freed exactly when its strong
count is zero. -/
def rcFreed (strongCount : Nat) : Prop := strongCount = 0

/-! ## Helper lemmas -/

theorem FixedBitSet.range_map_getD (l : List Bool) :
    (List.range l.length).map (fun i => l.getD i false) = l := by
  apply List.ext_getElem
  · simp
  · intro i h1 h2
    simp [List.getD_eq_getElem?_getD, List.getElem?_eq_getElem h2]

theorem FixedBitSet.union_with_self (s : FixedBitSet) :
    s.union_with s = s := by
  cases s with
  | mk l =>
    simp only [FixedBitSet.union_with, FixedBitSet.len, FixedBitSet.getBit,
      Nat.max_self, Bool.or_self]
    exact congrArg FixedBitSet.mk (FixedBitSet.range_map_getD l)

/-! ## Claim theorems -/

/-- C1: the claim says `transfer_forward` accumulates `gen` and `kill_mask`
over the block's instructions in reverse and in particular maps the empty
fact of a three-assignment straight-line block (declaration numbers 0, 1, 2
over distinct Spaces) to `{0, 1, 2}`.  The shipped code has the
accumulation loop commented out (`kill_var` is `todo!()`), so the result is
the all-zero vector instead. -/
theorem transfer_forward_scan_commented_out :
    transfer_forward
      ⟨⟨[IR.Assignment 10 (Operation.Binary BinaryOp.Add 20 21) ⟨some 0⟩,
         IR.Assignment 11 (Operation.Binary BinaryOp.Add 20 21) ⟨some 1⟩,
         IR.Assignment 12 (Operation.Binary BinaryOp.Add 20 21) ⟨some 2⟩,
         IR.Jump JumpOperation.End ⟨none⟩]⟩,
       ReachLattice.new 3, ReachLattice.new 3⟩
      (ReachLattice.new 3)
      ⟨[], ⟨3, [(10, [0]), (11, [1]), (12, [2])]⟩⟩ 0
      = ReachLattice.new 3
    ∧ ReachLattice.new 3 ≠ ReachLattice.mk ⟨[true, true, true]⟩ := by
  decide

/-- C2 counterexample: for the `bool` instance with `a = true`, `b = false`,
`meet_with` leaves `a = false` although `meet(true, false) = true`; and for
`ReachLattice` with `a = {0}`, `b = {}` (capacity 1), `meet_with` returns
`true` although `a` is left unaltered. -/
theorem meet_with_contract_counterexample :
    (SemiLatticeBool.meet_with true false).1 ≠ SemiLatticeBool.meet true false
    ∧ (ReachLattice.meet_with ⟨⟨[true]⟩⟩ ⟨⟨[false]⟩⟩).2 = true
    ∧ (ReachLattice.meet_with ⟨⟨[true]⟩⟩ ⟨⟨[false]⟩⟩).1 = ⟨⟨[true]⟩⟩ := by
  decide

/-- C2 amended: `meet_with(&mut a, b)` returns `true` iff `a ≠ b` before
the call.  For `ReachLattice` this leaves `a = meet(a, b)` but may report a
change without altering `a`; for `bool` it assigns `a := b` (which equals
`meet(a, b)` only when `a ≤ b`), so its flag does coincide with "`a` was
altered". -/
theorem meet_with_behavior (a b : Bool) (x y : ReachLattice) :
    (SemiLatticeBool.meet_with a b).1 = (if a = b then a else b)
    ∧ ((SemiLatticeBool.meet_with a b).2 = true
        ↔ (SemiLatticeBool.meet_with a b).1 ≠ a)
    ∧ (ReachLattice.meet_with x y).1 = ReachLattice.meet x y
    ∧ ((ReachLattice.meet_with x y).2 = true ↔ x.value ≠ y.value) := by
  refine ⟨?_, ?_, ?_, ?_⟩
  · cases a <;> cases b <;> decide
  · cases a <;> cases b <;> decide
  · unfold ReachLattice.meet_with ReachLattice.meet
    split
    · rename_i hv
      cases x with
      | mk xv =>
        cases y with
        | mk yv =>
          simp only at hv
          subst hv
          simp [FixedBitSet.union_with_self]
    · rfl
  · unfold ReachLattice.meet_with
    split <;> simp_all

/-- C3: the claim says `kill_var` returns the declaration numbers ever
assigned to the instruction's destination Space minus its own number (zeros
for non-assignments).  The shipped body is `todo!()`: every call panics
(`none` in the embedding) and in particular the assignment to Space 5 with
declaration number 0, where Space 5 is also assigned by declaration 1,
does not produce the claimed `{1}`. -/
theorem kill_var_todo :
    (∀ (ir : IR) (w : CodeBlockGraphWeight), ReachLattice.kill_var ir w = none)
    ∧ ReachLattice.kill_var
        (IR.Assignment 5 (Operation.Binary BinaryOp.Add 6 7) ⟨some 0⟩)
        ⟨2, [(5, [0, 1])]⟩
        ≠ some (ReachLattice.mk ⟨[false, true]⟩) := by
  exact ⟨fun ir w => rfl, by decide⟩

/-- C8: for the reaching-definitions instantiation the backward direction is
contractually unreachable: `transfer_backward` (`todo!()`) and `exit_in`
(`unimplemented!("Invalid data flow")`) panic on every input and never
return a value. -/
theorem backward_direction_always_panics (self : CodeBlockAnalysisNode)
    (out_value : ReachLattice) (graph : DataFlowGraph) (idx : Nat) :
    transfer_backward self out_value graph idx = none
    ∧ exit_in graph = none :=
  ⟨rfl, rfl⟩

/-- C9: literal integer arithmetic is defined only for addition:
`IntValue::binary` with `Add` and `Some(other)` returns the exact sum
`self.value + other.value` (whenever that sum is representable in `i64`;
on overflow the debug-mode addition panics), and every other binary
operator, every unary operator and every comparison is unfinished
(`todo!()`, i.e. panics — `none` in the embedding). -/
theorem int_literal_add_only (a b : IntValue) (op : BinaryOp) (u : UnaryOp)
    (c : CompareType) (other : Option IntValue)
    (h : i64Min ≤ a.value + b.value ∧ a.value + b.value ≤ i64Max) :
    a.binary BinaryOp.Add (some b) = some ⟨a.value + b.value⟩
    ∧ (op ≠ BinaryOp.Add → a.binary op other = none)
    ∧ a.binary BinaryOp.Add none = none
    ∧ a.unary u other = none
    ∧ a.static_cmp c other = none := by
  refine ⟨?_, ?_, rfl, rfl, rfl⟩
  · simp [IntValue.binary, h.1, h.2]
  · intro hop
    cases op <;> simp_all [IntValue.binary]

/-- C9 witness: `2 + 3` evaluates to `5`, `Sub` fails. -/
theorem int_literal_add_only_witness :
    IntValue.binary ⟨2⟩ BinaryOp.Add (some ⟨3⟩) = some ⟨2 + 3⟩
    ∧ IntValue.binary ⟨2⟩ BinaryOp.Sub (some ⟨3⟩) = none := by
  have h := int_literal_add_only ⟨2⟩ ⟨3⟩ BinaryOp.Sub UnaryOp.Not
    CompareType.Eq (some ⟨3⟩) (by constructor <;> decide)
  exact ⟨h.1, h.2.1 (by decide)⟩

/-- C10: indexed access into a reaching-definitions fact is total:
`ProductLattice::get` returns `none` exactly when the index is at least the
bit-vector's length and `some` of the bit at the index otherwise; the
length guard keeps the underlying indexing in bounds, so it never
panics. -/
theorem product_lattice_get_total (l : ReachLattice) (i : Nat) :
    (l.get i = none ↔ l.value.len ≤ i)
    ∧ (i < l.value.len → l.get i = some (l.value.getBit i)) := by
  unfold ReachLattice.get
  constructor
  · split <;> rename_i hsplit <;> simp <;> omega
  · intro h
    split <;> rename_i hsplit
    · omega
    · rfl

/-- C10 witness at a one-bit vector: index 0 reads the bit, index 1 is out
of range. -/
theorem product_lattice_get_total_witness :
    ReachLattice.get ⟨⟨[true]⟩⟩ 0 = some true
    ∧ ReachLattice.get ⟨⟨[true]⟩⟩ 1 = none := by
  have h0 := (product_lattice_get_total ⟨⟨[true]⟩⟩ 0).2 (by decide)
  have h1 := (product_lattice_get_total ⟨⟨[true]⟩⟩ 1).1.mpr (by decide)
  exact ⟨h0, h1⟩

/-- C4 counterexample: the back-handle `Function.program` is strong
(`ProgramRef = RcRef<Program>`), so already one Function constructed via
`lookup_or_insert_function` leaves the Program allocation with strong count
1 after the last external handle is dropped — the Program is never freed,
i.e. the Function does extend the Program's lifetime. -/
theorem function_back_ref_strong_counterexample :
    functionBackRefKind = HandleKind.strong
    ∧ programStrongCount 0 1 = 1
    ∧ ¬ rcFreed (programStrongCount 0 1) := by
  refine ⟨rfl, rfl, ?_⟩
  simp [rcFreed, programStrongCount, backRefStrongContribution,
    functionBackRefKind]

/-- C4 amended: each Function built by `lookup_or_insert_function` stores a
strong `Rc` handle to the Program (obtained by upgrading `weak_self`), so
Program → `function_pool` → Function → Program is a strong reference
cycle: with `n ≥ 1` Functions constructed, the Program allocation keeps
strong count `n` after every external handle is dropped and is never
freed. -/
theorem function_back_ref_keeps_program_alive (n : Nat) (h : 1 ≤ n) :
    programStrongCount 0 n = n ∧ ¬ rcFreed (programStrongCount 0 n) := by
  constructor
  · simp [programStrongCount, backRefStrongContribution, functionBackRefKind]
  · simp [rcFreed, programStrongCount, backRefStrongContribution,
      functionBackRefKind]
    omega

/-- C4 amended witness: one Function suffices to leak the Program. -/
theorem function_back_ref_keeps_program_alive_witness :
    programStrongCount 0 1 = 1 ∧ ¬ rcFreed (programStrongCount 0 1) :=
  function_back_ref_keeps_program_alive 1 (by decide)

/-! ## Pool extension lemmas -/

namespace MonotonicNamedPool

variable {α : Type}

/-- Pool extension: ids grow monotonically and existing logical-id and
arena lookups are preserved. -/
structure Le (p q : MonotonicNamedPool α) : Prop where
  next_le : p.next_id ≤ q.next_id
  id_pres : ∀ (nid h : Nat), p.get_id nid = some h → q.get_id nid = some h
  arena_pres : ∀ (h : Nat) (e : α), p.arena[h]? = some e → q.arena[h]? = some e

theorem Le.rfl (p : MonotonicNamedPool α) : Le p p :=
  ⟨Nat.le_refl _, fun _ _ h => h, fun _ _ h => h⟩

theorem Le.trans {p q r : MonotonicNamedPool α} (h1 : Le p q) (h2 : Le q r) :
    Le p r :=
  ⟨Nat.le_trans h1.next_le h2.next_le,
   fun nid h hp => h2.id_pres nid h (h1.id_pres nid h hp),
   fun h e hp => h2.arena_pres h e (h1.arena_pres h e hp)⟩

theorem get_id_bounds {p : MonotonicNamedPool α} (hWF : WF p) {nid h : Nat}
    (hget : p.get_id nid = some h) : nid < p.next_id ∧ h < p.arena.length := by
  unfold get_id at hget
  cases hfind : p.ids.find? (fun pr => pr.1 = nid) with
  | none => rw [hfind] at hget; simp at hget
  | some pr =>
    rw [hfind] at hget
    simp at hget
    have hmem := List.mem_of_find?_eq_some hfind
    have heq := List.find?_some hfind
    simp at heq
    have := hWF pr hmem
    omega

theorem get_id_insert_self (p : MonotonicNamedPool α) (e : α) :
    (p.insert e).2.get_id p.next_id = some p.arena.length := by
  simp [insert, get_id, List.find?]

theorem getEntity_insert_self (p : MonotonicNamedPool α) (e : α) :
    (p.insert e).2.getEntity p.next_id = some e := by
  unfold getEntity
  rw [get_id_insert_self]
  show (p.arena ++ [e])[p.arena.length]? = some e
  simp

theorem insert_fst (p : MonotonicNamedPool α) (e : α) :
    (p.insert e).1 = (p.next_id, p.arena.length) := rfl

theorem insert_next_id (p : MonotonicNamedPool α) (e : α) :
    (p.insert e).2.next_id = p.next_id + 1 := rfl

theorem le_insert {p : MonotonicNamedPool α} (hWF : WF p) (e : α) :
    Le p (p.insert e).2 := by
  refine ⟨Nat.le_succ _, ?_, ?_⟩
  · intro nid h hget
    have hb := get_id_bounds hWF hget
    unfold get_id at hget ⊢
    simp only [insert, List.find?]
    have hne : (decide (p.next_id = nid)) = false := by
      simp; omega
    rw [hne]
    exact hget
  · intro h e' hget
    have hlt : h < p.arena.length := by
      by_contra hc
      rw [List.getElem?_eq_none (by omega)] at hget
      simp at hget
    show (p.arena ++ [e])[h]? = some e'
    rw [List.getElem?_append_left hlt]
    exact hget

theorem wf_insert {p : MonotonicNamedPool α} (hWF : WF p) (e : α) :
    WF (p.insert e).2 := by
  intro pr hmem
  simp only [insert] at hmem
  simp only [List.mem_cons] at hmem
  simp only [insert, List.length_append, List.length_cons]
  rcases hmem with hmem | hmem
  · subst hmem; simp
  · have := hWF pr hmem
    simp at this ⊢
    omega

theorem getEntity_mono {p q : MonotonicNamedPool α} (hle : Le p q) {nid : Nat}
    {s : α} (hget : p.getEntity nid = some s) : q.getEntity nid = some s := by
  unfold getEntity at hget ⊢
  cases hg : p.get_id nid with
  | none => rw [hg] at hget; simp at hget
  | some h =>
    rw [hg] at hget
    simp only [Option.some_bind] at hget
    rw [hle.id_pres nid h hg]
    simpa using hle.arena_pres h s hget

end MonotonicNamedPool

/-! ## Properties of the `declare_space` recursion -/

/-- Pool `p` holds, at logical id `m`, a Space freshly declared with type
`t` in scope `scope` (the member list is whatever `t`'s own decomposition
produced). -/
def hasDeclaredSpace (p : MonotonicNamedPool Space) (scope : Scope)
    (t : DataType) (m : Nat) : Prop :=
  ∃ ms, p.getEntity m =
    some ⟨SpaceSignature.Normal (some t) ms, scope, FlatLattice.Top⟩

theorem hasDeclaredSpace_mono {p q : MonotonicNamedPool Space} {scope : Scope}
    {t : DataType} {m : Nat} (hle : p.Le q)
    (h : hasDeclaredSpace p scope t m) : hasDeclaredSpace q scope t m := by
  obtain ⟨ms, hms⟩ := h
  exact ⟨ms, MonotonicNamedPool.getEntity_mono hle hms⟩

/-- Everything `declare_space_core` guarantees: a well-formed extended
pool, the aggregate stored last under a fresh id with signature
`Normal(ty, members)`, one member Space per member type in order, member
ids strictly increasing and all below the aggregate's id. -/
def CoreP (p : MonotonicNamedPool Space) (ty : Option DataType)
    (scope : Scope) : Prop :=
  ((declare_space_core p ty scope).2.WF
  ∧ p.Le (declare_space_core p ty scope).2
  ∧ p.next_id ≤ (declare_space_core p ty scope).1.1
  ∧ (declare_space_core p ty scope).1.1 + 1 =
      (declare_space_core p ty scope).2.next_id)
  ∧ ∃ members,
      (declare_space_core p ty scope).2.getEntity
          (declare_space_core p ty scope).1.1 =
        some ⟨SpaceSignature.Normal ty members, scope, FlatLattice.Top⟩
      ∧ List.Forall₂
          (fun t m => hasDeclaredSpace (declare_space_core p ty scope).2 scope t m)
          (memberTypes ty) members
      ∧ List.Pairwise (· < ·) (members ++ [(declare_space_core p ty scope).1.1])
      ∧ ∀ m ∈ members, p.next_id ≤ m

/-- Everything `declareMembers` guarantees: a well-formed extended pool,
one declared Space per member type in order, ids strictly increasing and
all within `[p.next_id, result.next_id)`. -/
def MembersP (p : MonotonicNamedPool Space) (l : List DataType)
    (scope : Scope) : Prop :=
  (declareMembers p l scope).2.WF
  ∧ p.Le (declareMembers p l scope).2
  ∧ List.Forall₂
      (fun t m => hasDeclaredSpace (declareMembers p l scope).2 scope t m)
      l (declareMembers p l scope).1
  ∧ List.Pairwise (· < ·) (declareMembers p l scope).1
  ∧ ∀ m ∈ (declareMembers p l scope).1,
      p.next_id ≤ m ∧ m < (declareMembers p l scope).2.next_id

theorem coreP_step {p : MonotonicNamedPool Space} {ty : Option DataType}
    {scope : Scope} (hWF : p.WF) (hm : MembersP p (memberTypes ty) scope) :
    CoreP p ty scope := by
  unfold CoreP
  unfold MembersP at hm
  simp only [declare_space_core]
  cases hr : declareMembers p (memberTypes ty) scope with
  | mk ids p1 =>
    rw [hr] at hm
    obtain ⟨hWF1, hLe1, hF, hPW, hBnd⟩ := hm
    replace hWF1 : p1.WF := hWF1
    replace hLe1 : p.Le p1 := hLe1
    replace hF : List.Forall₂
      (fun t m => hasDeclaredSpace p1 scope t m) (memberTypes ty) ids := hF
    replace hPW : List.Pairwise (· < ·) ids := hPW
    replace hBnd : ∀ m ∈ ids, p.next_id ≤ m ∧ m < p1.next_id := hBnd
    constructor
    · refine ⟨MonotonicNamedPool.wf_insert hWF1 _,
        hLe1.trans (MonotonicNamedPool.le_insert hWF1 _), ?_, ?_⟩
      · exact hLe1.next_le
      · rfl
    · refine ⟨ids, ?_, ?_, ?_, ?_⟩
      · exact MonotonicNamedPool.getEntity_insert_self p1 _
      · exact hF.imp (fun {t m} h =>
          hasDeclaredSpace_mono (MonotonicNamedPool.le_insert hWF1 _) h)
      · rw [List.pairwise_append]
        refine ⟨hPW, List.pairwise_singleton _ _, ?_⟩
        intro a ha b hb
        simp only [List.mem_singleton] at hb
        subst hb
        exact (hBnd a ha).2
      · intro m hmem
        exact (hBnd m hmem).1

theorem membersP_fuel :
    ∀ (k : Nat) (p : MonotonicNamedPool Space) (l : List DataType)
      (scope : Scope), listWeight l ≤ k → p.WF → MembersP p l scope := by
  intro k
  induction k with
  | zero =>
    intro p l scope hw hWF
    cases l with
    | nil =>
      unfold MembersP
      simp only [declareMembers]
      exact ⟨hWF, MonotonicNamedPool.Le.rfl p, List.Forall₂.nil,
        List.Pairwise.nil, by simp⟩
    | cons t ts =>
      exfalso
      simp [listWeight] at hw
  | succ k ih =>
    intro p l scope hw hWF
    cases l with
    | nil =>
      unfold MembersP
      simp only [declareMembers]
      exact ⟨hWF, MonotonicNamedPool.Le.rfl p, List.Forall₂.nil,
        List.Pairwise.nil, by simp⟩
    | cons t ts =>
      have hw1 : t.weight + 1 + listWeight ts ≤ k + 1 := by
        simpa [listWeight] using hw
      have hmt : listWeight (memberTypes (some t)) ≤ k := by
        have := listWeight_memberTypes_le (some t)
        simp only [optWeight] at this
        omega
      have hcore : CoreP p (some t) scope :=
        coreP_step hWF (ih p (memberTypes (some t)) scope hmt hWF)
      unfold CoreP at hcore
      unfold MembersP
      simp only [declareMembers]
      cases h1 : declare_space_core p (some t) scope with
      | mk a p1 =>
        cases a with
        | mk nid aid =>
          rw [h1] at hcore
          obtain ⟨⟨hWF1, hLe1, hnid_ge, hnid_succ⟩, ms, hent, hmsF, hmsPW, hmsB⟩ :=
            hcore
          replace hWF1 : p1.WF := hWF1
          replace hLe1 : p.Le p1 := hLe1
          replace hnid_ge : p.next_id ≤ nid := hnid_ge
          replace hnid_succ : nid + 1 = p1.next_id := hnid_succ
          replace hent : p1.getEntity nid =
            some ⟨SpaceSignature.Normal (some t) ms, scope, FlatLattice.Top⟩ :=
            hent
          have hts : MembersP p1 ts scope :=
            ih p1 ts scope (by omega) hWF1
          unfold MembersP at hts
          cases h2 : declareMembers p1 ts scope with
          | mk ids2 p2 =>
            rw [h2] at hts
            obtain ⟨hWF2, hLe2, hF2, hPW2, hB2⟩ := hts
            replace hWF2 : p2.WF := hWF2
            replace hLe2 : p1.Le p2 := hLe2
            replace hF2 : List.Forall₂
              (fun t m => hasDeclaredSpace p2 scope t m) ts ids2 := hF2
            replace hPW2 : List.Pairwise (· < ·) ids2 := hPW2
            replace hB2 : ∀ m ∈ ids2, p1.next_id ≤ m ∧ m < p2.next_id := hB2
            refine ⟨hWF2, hLe1.trans hLe2, ?_, ?_, ?_⟩
            · refine List.Forall₂.cons ?_ hF2
              exact hasDeclaredSpace_mono hLe2 ⟨ms, hent⟩
            · rw [List.pairwise_cons]
              refine ⟨?_, hPW2⟩
              intro m hmem
              have hge := (hB2 m hmem).1
              show nid < m
              omega
            · show ∀ m ∈ nid :: ids2, p.next_id ≤ m ∧ m < p2.next_id
              intro m hmem
              simp only [List.mem_cons] at hmem
              rcases hmem with hmem | hmem
              · subst hmem
                refine ⟨hnid_ge, ?_⟩
                have := hLe2.next_le
                omega
              · have := (hB2 m hmem).1
                have h2' := (hB2 m hmem).2
                have := hLe1.next_le
                exact ⟨by omega, h2'⟩

theorem coreP_all (p : MonotonicNamedPool Space) (ty : Option DataType)
    (scope : Scope) (hWF : p.WF) : CoreP p ty scope :=
  coreP_step hWF
    (membersP_fuel (listWeight (memberTypes ty)) p (memberTypes ty) scope
      (Nat.le_refl _) hWF)

theorem forall2_replicate {R : DataType → Nat → Prop} :
    ∀ (n : Nat) (t : DataType) (ms : List Nat),
      List.Forall₂ R (List.replicate n t) ms →
      ms.length = n ∧ ∀ m ∈ ms, R t m := by
  intro n
  induction n with
  | zero =>
    intro t ms h
    cases h
    simp
  | succ k ih =>
    intro t ms h
    rw [List.replicate_succ] at h
    cases h with
    | cons hR htail =>
      obtain ⟨hlen, hmem⟩ := ih t _ htail
      refine ⟨by simp [hlen], ?_⟩
      intro m hm
      rcases List.mem_cons.mp hm with hm | hm
      · subst hm; exact hR
      · exact hmem m hm

/-- C7: `declare_space` (`Program::` and the textually identical
`Function::` version) decomposes aggregates: the declared Space carries
signature `Normal(ty, members)`, with exactly one recursively declared
member Space per member type (N of element type T for `Array(T, N)`, the
declared member types in order for `Struct`), member ids recorded in index
order (strictly increasing) and all allocated before the aggregate's own
id; a `None` type yields no members and an unknown type. -/
theorem declare_space_aggregate_decomposition (ps : ProgramState)
    (fs : FunctionState) (ty : Option DataType) (scope : Scope)
    (hWF : ps.space_pool.WF) :
    ∃ members,
      (ps.declare_space ty scope).2.space_pool.getEntity
          (ps.declare_space ty scope).1.1
        = some ⟨SpaceSignature.Normal ty members, scope, FlatLattice.Top⟩
      ∧ List.Forall₂
          (fun t m =>
            hasDeclaredSpace (ps.declare_space ty scope).2.space_pool scope t m)
          (memberTypes ty) members
      ∧ List.Pairwise (· < ·) (members ++ [(ps.declare_space ty scope).1.1])
      ∧ (∀ t n, ty = some (DataType.Array t n) →
          members.length = n ∧ ∀ m ∈ members,
            hasDeclaredSpace (ps.declare_space ty scope).2.space_pool scope t m)
      ∧ (∀ ts, ty = some (DataType.Struct ts) → members.length = ts.length)
      ∧ (ty = none → members = [])
      ∧ fs.declare_space ps ty scope =
          ((ps.declare_space ty scope).1, fs, (ps.declare_space ty scope).2) := by
  have h := coreP_all ps.space_pool ty scope hWF
  unfold CoreP at h
  obtain ⟨_, members, hent, hF, hPW, _⟩ := h
  refine ⟨members, hent, hF, hPW, ?_, ?_, ?_, rfl⟩
  · intro t n hty
    subst hty
    simp only [memberTypes] at hF
    exact forall2_replicate n t members hF
  · intro ts hty
    subst hty
    simp only [memberTypes] at hF
    exact (List.Forall₂.length_eq hF).symm
  · intro hty
    subst hty
    simp only [memberTypes] at hF
    cases hF
    rfl

/-- C7 witness: declaring `Array(I64, 2)` from a fresh program state
yields an aggregate with exactly two `I64` member Spaces. -/
theorem declare_space_aggregate_decomposition_witness :
    ∃ members,
      (ProgramState.new.declare_space (some (DataType.Array DataType.I64 2))
          Scope.Global).2.space_pool.getEntity
          (ProgramState.new.declare_space (some (DataType.Array DataType.I64 2))
            Scope.Global).1.1
        = some ⟨SpaceSignature.Normal (some (DataType.Array DataType.I64 2))
            members, Scope.Global, FlatLattice.Top⟩
      ∧ members.length = 2 := by
  obtain ⟨members, hent, _, _, harr, _⟩ :=
    declare_space_aggregate_decomposition ProgramState.new ⟨0, ⟨[]⟩⟩
      (some (DataType.Array DataType.I64 2)) Scope.Global
      (by intro pr hpr; simp [ProgramState.new, MonotonicNamedPool.new] at hpr)
  exact ⟨members, hent, (harr DataType.I64 2 rfl).1⟩

/-! ## Name-map lemmas -/

theorem nameMap_get_name_id_mem {κ : Type} [DecidableEq κ]
    {m : MonotonicNameMap κ} {k : κ} {nid : Nat}
    (h : m.get_name_id k = some nid) : (k, nid) ∈ m.bindings := by
  unfold MonotonicNameMap.get_name_id at h
  cases hf : m.bindings.find? (fun pr => pr.1 = k) with
  | none => rw [hf] at h; simp at h
  | some pr =>
    rw [hf] at h
    simp at h
    have hmem := List.mem_of_find?_eq_some hf
    have heq := List.find?_some hf
    obtain ⟨a, b⟩ := pr
    simp at heq h
    subst heq
    subst h
    exact hmem

theorem nameMap_get_name_id_bind_self {κ : Type} [DecidableEq κ]
    (m : MonotonicNameMap κ) (k : κ) (nid : Nat) :
    (m.bind k nid).get_name_id k = some nid := by
  simp [MonotonicNameMap.bind, MonotonicNameMap.get_name_id, List.find?]

theorem nameMap_get_name_id_bind_ne {κ : Type} [DecidableEq κ]
    (m : MonotonicNameMap κ) {k k' : κ} (nid : Nat) (hne : k ≠ k') :
    (m.bind k nid).get_name_id k' = m.get_name_id k' := by
  simp only [MonotonicNameMap.bind, MonotonicNameMap.get_name_id, List.find?]
  have : (decide ((k, nid).1 = k')) = false := by simp; exact hne
  rw [this]

/-- C5: `lookup_or_insert_space` resolves with precedence
local-then-global-then-fresh: an existing local binding wins (its Space
fetched from the shared pool), otherwise an existing global binding in the
owning Program wins, otherwise a new local Space with unknown (`None`)
type is declared and bound. -/
theorem lookup_or_insert_space_resolution (f : FunctionState)
    (ps : ProgramState) (name : String) :
    (∀ nid sid, f.locals.get_name_id name = some nid →
        ps.lookup_space nid = some sid →
        f.lookup_or_insert_space ps name = some ((nid, sid), f, ps))
    ∧ (∀ t, f.locals.get_name_id name = none →
        ps.lookup_global_by_name name = some t →
        f.lookup_or_insert_space ps name = some (t, f, ps))
    ∧ (f.locals.get_name_id name = none →
        ps.lookup_global_by_name name = none →
        f.lookup_or_insert_space ps name =
          some ((ps.space_pool.next_id, ps.space_pool.arena.length),
                ⟨f.name_id, f.locals.bind name ps.space_pool.next_id⟩,
                (f.declare_local ps name none).2.2)
        ∧ (f.declare_local ps name none).2.2.space_pool.getEntity
            ps.space_pool.next_id =
          some ⟨SpaceSignature.Normal none [], Scope.Local f.name_id,
            FlatLattice.Top⟩) := by
  refine ⟨?_, ?_, ?_⟩
  · intro nid sid hloc hsid
    unfold FunctionState.lookup_or_insert_space
    rw [hloc]
    show Option.map (fun s => ((nid, s), f, ps)) (ps.lookup_space nid) =
      some ((nid, sid), f, ps)
    rw [hsid]
    rfl
  · intro t hloc hglob
    unfold FunctionState.lookup_or_insert_space
    rw [hloc]
    show (match ps.lookup_global_by_name name with
      | some t => some (t, f, ps)
      | none => some (f.declare_local ps name none)) = some (t, f, ps)
    rw [hglob]
  · intro hloc hglob
    constructor
    · unfold FunctionState.lookup_or_insert_space
      rw [hloc]
      show (match ps.lookup_global_by_name name with
        | some t => some (t, f, ps)
        | none => some (f.declare_local ps name none)) = _
      rw [hglob]
      show some (f.declare_local ps name none) = _
      unfold FunctionState.declare_local FunctionState.declare_space
      simp only [declare_space_core, declareMembers, memberTypes]
      rfl
    · unfold FunctionState.declare_local FunctionState.declare_space
      simp only [declare_space_core, declareMembers, memberTypes]
      exact MonotonicNamedPool.getEntity_insert_self ps.space_pool _

def c5GlobalSpace : Space :=
  ⟨SpaceSignature.Normal none [], Scope.Global, FlatLattice.Top⟩

def c5LocalSpace : Space :=
  ⟨SpaceSignature.Normal none [], Scope.Local 7, FlatLattice.Top⟩

def c5Ps1 : ProgramState :=
  ⟨⟨2, [c5GlobalSpace], [(1, 0)]⟩, ⟨[("x", 1)]⟩, ⟨[]⟩⟩

def c5Ps2 : ProgramState :=
  ⟨⟨6, [c5GlobalSpace, c5LocalSpace], [(5, 1), (1, 0)]⟩, ⟨[("x", 1)]⟩, ⟨[]⟩⟩

def c5F0 : FunctionState := ⟨7, ⟨[]⟩⟩

def c5F1 : FunctionState := ⟨7, ⟨[("x", 5)]⟩⟩

/-- C5 witness: with both a local `x` (id 5) and a global `x` (id 1)
declared, lookup returns the local; with only the global it returns the
global; with neither it declares a fresh local. -/
theorem lookup_or_insert_space_resolution_witness :
    c5F1.lookup_or_insert_space c5Ps2 "x" = some ((5, 1), c5F1, c5Ps2)
    ∧ c5F0.lookup_or_insert_space c5Ps1 "x" = some ((1, 0), c5F0, c5Ps1)
    ∧ c5F0.lookup_or_insert_space ProgramState.new "x" =
        some ((1, 0), ⟨7, c5F0.locals.bind "x" 1⟩,
          (c5F0.declare_local ProgramState.new "x" none).2.2) := by
  refine ⟨?_, ?_, ?_⟩
  · exact (lookup_or_insert_space_resolution c5F1 c5Ps2 "x").1 5 1
      (by decide) (by decide)
  · exact (lookup_or_insert_space_resolution c5F0 c5Ps1 "x").2.1 (1, 0)
      (by decide) (by decide)
  · exact ((lookup_or_insert_space_resolution c5F0 ProgramState.new "x").2.2
      (by decide) (by decide)).1

/-! ## Constant deduplication (C6) -/

/-- Sanity invariant of the `constants` map: every bound logical id was
allocated below the pool's counter, and distinct values are bound to
distinct ids (every binding is created with a fresh id by
`get_id_or_insert`). -/
def ConstWF (ps : ProgramState) : Prop :=
  (∀ pr ∈ ps.constants.bindings, pr.2 < ps.space_pool.next_id)
  ∧ (∀ pr qr, pr ∈ ps.constants.bindings → qr ∈ ps.constants.bindings →
      pr.2 = qr.2 → pr.1 = qr.1)

/-- The Space `lookup_or_insert_constant` builds for a fresh value. -/
def constSpace (ty : DataType) (v : Value) : Space :=
  ⟨SpaceSignature.Normal (some ty) (constantMembers v), Scope.Global,
   FlatLattice.Value v⟩

theorem louc_eq_bound {ps : ProgramState} {v : Value} {nid hd : Nat}
    (ty : DataType) (hb : ps.constants.get_name_id v = some nid)
    (hg : ps.space_pool.get_id nid = some hd) :
    ps.lookup_or_insert_constant ty v = some ((nid, hd), ps) := by
  unfold ProgramState.lookup_or_insert_constant MonotonicNameMap.get_id_or_insert
  rw [hb]
  show Option.map _ (Option.map
    (fun h => ((nid, h), ps.constants, ps.space_pool))
    (ps.space_pool.get_id nid)) = _
  rw [hg]
  rfl

theorem louc_eq_bound_missing {ps : ProgramState} {v : Value} {nid : Nat}
    (ty : DataType) (hb : ps.constants.get_name_id v = some nid)
    (hg : ps.space_pool.get_id nid = none) :
    ps.lookup_or_insert_constant ty v = none := by
  unfold ProgramState.lookup_or_insert_constant MonotonicNameMap.get_id_or_insert
  rw [hb]
  show Option.map _ (Option.map
    (fun h => ((nid, h), ps.constants, ps.space_pool))
    (ps.space_pool.get_id nid)) = _
  rw [hg]
  rfl

theorem louc_eq_fresh {ps : ProgramState} {v : Value} (ty : DataType)
    (hb : ps.constants.get_name_id v = none) :
    ps.lookup_or_insert_constant ty v =
      some ((ps.space_pool.next_id, ps.space_pool.arena.length),
        ⟨(ps.space_pool.insert (constSpace ty v)).2, ps.globals,
         ps.constants.bind v ps.space_pool.next_id⟩) := by
  unfold ProgramState.lookup_or_insert_constant MonotonicNameMap.get_id_or_insert
  rw [hb]
  rfl

/-- C6: `lookup_or_insert_constant` deduplicates by value: a repeated
value returns the same logical Space id (and leaves the state unchanged),
different values get different ids, and a freshly created constant Space
carries the flat-lattice fact `Value(v)` (scope `Global`, signature
`Normal(Some(type), members)`) — never `Top`. -/
theorem lookup_or_insert_constant_dedup (ps : ProgramState)
    (ty1 ty2 : DataType) (v1 v2 : Value) (hWF : ConstWF ps) :
    (∀ r ps1, ps.lookup_or_insert_constant ty1 v1 = some (r, ps1) →
        ps1.lookup_or_insert_constant ty2 v1 = some (r, ps1))
    ∧ (v1 ≠ v2 → ∀ r1 ps1 r2 ps2,
        ps.lookup_or_insert_constant ty1 v1 = some (r1, ps1) →
        ps1.lookup_or_insert_constant ty2 v2 = some (r2, ps2) →
        r1.1 ≠ r2.1)
    ∧ (ps.constants.get_name_id v1 = none →
        ∀ r1 ps1, ps.lookup_or_insert_constant ty1 v1 = some (r1, ps1) →
        ps1.space_pool.getEntity r1.1 =
          some ⟨SpaceSignature.Normal (some ty1) (constantMembers v1),
            Scope.Global, FlatLattice.Value v1⟩) := by
  refine ⟨?_, ?_, ?_⟩
  · intro r ps1 h
    cases hb : ps.constants.get_name_id v1 with
    | some nid =>
      cases hg : ps.space_pool.get_id nid with
      | none => rw [louc_eq_bound_missing ty1 hb hg] at h; simp at h
      | some hd =>
        rw [louc_eq_bound ty1 hb hg] at h
        simp only [Option.some.injEq, Prod.mk.injEq] at h
        obtain ⟨hr, hps⟩ := h
        subst hr
        subst hps
        exact louc_eq_bound ty2 hb hg
    | none =>
      rw [louc_eq_fresh ty1 hb] at h
      simp only [Option.some.injEq, Prod.mk.injEq] at h
      obtain ⟨hr, hps⟩ := h
      subst hr
      subst hps
      exact louc_eq_bound ty2
        (nameMap_get_name_id_bind_self ps.constants v1 ps.space_pool.next_id)
        (MonotonicNamedPool.get_id_insert_self ps.space_pool _)
  · intro hne r1 ps1 r2 ps2 h1 h2
    cases hb1 : ps.constants.get_name_id v1 with
    | some nid1 =>
      cases hg1 : ps.space_pool.get_id nid1 with
      | none => rw [louc_eq_bound_missing ty1 hb1 hg1] at h1; simp at h1
      | some hd1 =>
        rw [louc_eq_bound ty1 hb1 hg1] at h1
        simp only [Option.some.injEq, Prod.mk.injEq] at h1
        obtain ⟨hr1, hps1⟩ := h1
        subst hr1
        subst hps1
        cases hb2 : ps.constants.get_name_id v2 with
        | some nid2 =>
          cases hg2 : ps.space_pool.get_id nid2 with
          | none => rw [louc_eq_bound_missing ty2 hb2 hg2] at h2; simp at h2
          | some hd2 =>
            rw [louc_eq_bound ty2 hb2 hg2] at h2
            simp only [Option.some.injEq, Prod.mk.injEq] at h2
            obtain ⟨hr2, _⟩ := h2
            subst hr2
            intro hcontra
            simp only at hcontra
            exact hne (hWF.2 (v1, nid1) (v2, nid2)
              (nameMap_get_name_id_mem hb1) (nameMap_get_name_id_mem hb2)
              hcontra)
        | none =>
          rw [louc_eq_fresh ty2 hb2] at h2
          simp only [Option.some.injEq, Prod.mk.injEq] at h2
          obtain ⟨hr2, _⟩ := h2
          subst hr2
          intro hcontra
          simp only at hcontra
          have := hWF.1 (v1, nid1) (nameMap_get_name_id_mem hb1)
          simp only at this
          omega
    | none =>
      rw [louc_eq_fresh ty1 hb1] at h1
      simp only [Option.some.injEq, Prod.mk.injEq] at h1
      obtain ⟨hr1, hps1⟩ := h1
      subst hr1
      subst hps1
      have hbind : (MonotonicNameMap.bind ps.constants v1
          ps.space_pool.next_id).get_name_id v2 = ps.constants.get_name_id v2 :=
        nameMap_get_name_id_bind_ne ps.constants ps.space_pool.next_id hne
      cases hb2 : ps.constants.get_name_id v2 with
      | some nid2 =>
        cases hg2 : (ps.space_pool.insert (constSpace ty1 v1)).2.get_id nid2 with
        | none =>
          rw [louc_eq_bound_missing ty2 (hbind.trans hb2) hg2] at h2
          simp at h2
        | some hd2 =>
          rw [louc_eq_bound ty2 (hbind.trans hb2) hg2] at h2
          simp only [Option.some.injEq, Prod.mk.injEq] at h2
          obtain ⟨hr2, _⟩ := h2
          subst hr2
          intro hcontra
          simp only at hcontra
          have := hWF.1 (v2, nid2) (nameMap_get_name_id_mem hb2)
          simp only at this
          omega
      | none =>
        rw [louc_eq_fresh ty2 (hbind.trans hb2)] at h2
        simp only [Option.some.injEq, Prod.mk.injEq] at h2
        obtain ⟨hr2, _⟩ := h2
        subst hr2
        intro hcontra
        simp only [MonotonicNamedPool.insert_next_id] at hcontra
        omega
  · intro hb r1 ps1 h
    rw [louc_eq_fresh ty1 hb] at h
    simp only [Option.some.injEq, Prod.mk.injEq] at h
    obtain ⟨hr1, hps1⟩ := h
    subst hr1
    subst hps1
    exact MonotonicNamedPool.getEntity_insert_self ps.space_pool _

def c6Ps1 : ProgramState :=
  ⟨⟨2, [constSpace DataType.I64 (Value.Int ⟨1⟩)], [(1, 0)]⟩, ⟨[]⟩,
   ⟨[(Value.Int ⟨1⟩, 1)]⟩⟩

def c6Ps2 : ProgramState :=
  ⟨⟨3, [constSpace DataType.I64 (Value.Int ⟨1⟩),
        constSpace DataType.I64 (Value.Int ⟨2⟩)], [(2, 1), (1, 0)]⟩, ⟨[]⟩,
   ⟨[(Value.Int ⟨2⟩, 2), (Value.Int ⟨1⟩, 1)]⟩⟩

/-- C6 witness: from a fresh program, interning the constant 1 twice
returns id 1 both times; interning 2 afterwards returns the distinct id 2;
the Space created for 1 carries the fact `Value(1)`. -/
theorem lookup_or_insert_constant_dedup_witness :
    c6Ps1.lookup_or_insert_constant DataType.I64 (Value.Int ⟨1⟩) =
      some ((1, 0), c6Ps1)
    ∧ (1 : Nat) ≠ 2
    ∧ c6Ps1.space_pool.getEntity 1 =
        some ⟨SpaceSignature.Normal (some DataType.I64) [], Scope.Global,
          FlatLattice.Value (Value.Int ⟨1⟩)⟩ := by
  have hwf : ConstWF ProgramState.new :=
    ⟨fun pr hpr => absurd hpr (List.not_mem_nil pr),
     fun pr qr hpr hqr heq => absurd hpr (List.not_mem_nil pr)⟩
  have T := lookup_or_insert_constant_dedup ProgramState.new DataType.I64
    DataType.I64 (Value.Int ⟨1⟩) (Value.Int ⟨2⟩) hwf
  have hfirst : ProgramState.new.lookup_or_insert_constant DataType.I64
      (Value.Int ⟨1⟩) = some ((1, 0), c6Ps1) := by rfl
  have hsecond : c6Ps1.lookup_or_insert_constant DataType.I64
      (Value.Int ⟨2⟩) = some ((2, 1), c6Ps2) := by rfl
  refine ⟨T.1 (1, 0) c6Ps1 hfirst, ?_, T.2.2 rfl (1, 0) c6Ps1 hfirst⟩
  exact T.2.1 (by decide) (1, 0) c6Ps1 (2, 1) c6Ps2 hfirst hsecond
